import Mathlib

/-!
Verification development for the HGR geometry solver's beam-search
orchestration core (`beam_search` and `solve_with_time` in `eval.py` and
`app.py`).

The beam search is embedded shallowly.  External collaborators appear as
function parameters, matching the interfaces in the source:

* the Scorer (`theorem_pred`) is a parameter
  `pred : GraphSolver -> List (Nat x Rat)`, the sorted score dictionary as an
  ordered association list of (theorem id, probability) pairs in the order the
  Python dict iterates (descending probability);
* theorem resolution plus application (`get_model` followed by
  `solve_with_one_model`, both inside one `try`) is a parameter
  `applyFn : Nat -> GraphSolver -> Except String GraphSolver`; `Except.error`
  models a raised exception, `Except.ok h` the state of the cloned hypothesis
  after the in-place mutation (Python mutates the deep copy in place; under
  value semantics that is a function from the old state to the new state);
* `np.log` is a parameter `logFn : Rat -> Rat`: floating-point `log` has no
  exact embedding, so theorems that need its mathematics (monotonicity,
  nonpositivity on (0, 1]) take them as explicit hypotheses.

Probabilities and cumulative scores are modelled as rationals; the Python
floats are IEEE doubles, but none of the verified claims depends on rounding.
-/

namespace HGR

/-- One matched model instance inside a reasoning step, as rendered by the
front end in `app.py` (`instance["relation"]`, `instance["actions"]`,
`instance["equations"]`). -/
structure ModelInstance where
  relation : String
  actions : List String
  equations : List String
deriving DecidableEq, Repr

/-- One entry of a hypothesis's `reasoning_record`, as rendered by the front
end in `app.py` (`step["model_name"]`, `step["instances"]`). -/
structure StepRecord where
  model_name : String
  insts : List ModelInstance
deriving DecidableEq, Repr

/-- The state of one search hypothesis (a `GraphSolver` object) as seen by
`beam_search`: the fields the search reads are `is_updated`, `answer`,
`model_instance_eq_num` and (in `app.py`) `reasoning_record`; the relation
graph itself is opaque to the search and is modelled as an abstract `graph`
token consumed only by the scorer parameter. -/
structure GraphSolver where
  graph : Nat
  is_updated : Bool
  answer : Option ℚ
  model_instance_eq_num : Nat
  reasoning_record : List StepRecord
deriving DecidableEq, Repr

/-- The pruning threshold `EPSILON = 1e-5` of `eval.py` line 25 and `app.py`
line 30. -/
def EPSILON : ℚ := 1 / 100000

/-- One candidate successor produced in the expansion loop of `beam_search`.
The source keeps three parallel lists (`hyp_theorem` entries `[hyp, key]`,
`conti_hyp_scores`, `conti_hyp_steps`) that are appended to in lockstep; they
are bundled here into one record.  The probability `prob` that generated the
candidate (`cur_score` in the source) is additionally recorded so that
specifications can speak about it; the search itself never reads it. -/
structure Candidate where
  parent : GraphSolver
  theoremId : Nat
  prob : ℚ
  score : ℚ
  steps : List Nat
deriving DecidableEq, Repr

/-- One entry of the beam frontier: the parallel lists `hypotheses`,
`hyp_scores`, `hyp_steps` of the source, bundled positionally. -/
structure BeamEntry where
  hyp : GraphSolver
  score : ℚ
  steps : List Nat
deriving DecidableEq, Repr

/-- Result dictionary of `eval.py`'s `beam_search`: `step_lst` is the
accumulated list of applied theorem ids (`now_steps`). -/
structure BeamRes where
  answer : Option ℚ
  step_lst : List Nat
  model_instance_eq_num : Option Nat
deriving DecidableEq, Repr

/-- Result dictionary of `app.py`'s `beam_search`: `step_lst` is the winning
hypothesis's `reasoning_record`. -/
structure AppBeamRes where
  answer : Option ℚ
  step_lst : List StepRecord
  model_instance_eq_num : Option Nat
deriving DecidableEq, Repr

/-- The initial value of `beam_search_res`:
`{"answer": None, "step_lst": [], "model_instance_eq_num": None}`. -/
def emptyBeamRes : BeamRes := ⟨none, [], none⟩

/-- The initial value of `beam_search_res` in `app.py`. -/
def emptyAppBeamRes : AppBeamRes := ⟨none, [], none⟩

/-- Expansion of one frontier entry (`eval.py` lines 100-109, `app.py` lines
95-104): walk the first `beam_size` entries of the sorted score dictionary
(`for i in range(self.beam_size)` indexing `list(sorted_score_dict.values())[i]`
and `list(sorted_score_dict.keys())[i]`; the scorer returns one entry per
model class, `num_classes = 64`, so the indexing stays in range whenever
`beamSize` is at most the scorer's output length, which theorems assume where
it matters), skip any candidate whose probability is below `EPSILON`
(`if cur_score < EPSILON: continue`), and otherwise emit a candidate carrying
the parent, the theorem id, the score `hyp_scores[hyp_index] + np.log(cur_score)`
and the extended step list `hyp_steps[hyp_index] + [key]`. -/
def hypCandidates (pred : GraphSolver → List (Nat × ℚ)) (logFn : ℚ → ℚ)
    (beamSize : Nat) (e : BeamEntry) : List Candidate :=
  ((pred e.hyp).take beamSize).filterMap fun c =>
    if c.2 < EPSILON then none
    else some ⟨e.hyp, c.1, c.2, e.score + logFn c.2, e.steps ++ [c.1]⟩

/-- The full candidate pool of one iteration: the expansion loop over
`enumerate(hypotheses)`, in frontier order. -/
def iterPool (pred : GraphSolver → List (Nat × ℚ)) (logFn : ℚ → ℚ)
    (beamSize : Nat) (frontier : List BeamEntry) : List Candidate :=
  (frontier.map (hypCandidates pred logFn beamSize)).flatten

/-- Pair each score with its position, starting at index `n` (the tensor
positions that `torch.topk` reports). -/
def idxFrom : Nat → List ℚ → List (Nat × ℚ)
  | _, [] => []
  | n, q :: t => (n, q) :: idxFrom (n + 1) t

/-- Insert an indexed score into a list sorted by descending score, placing it
before the first strictly smaller entry. -/
def insertDesc (x : Nat × ℚ) : List (Nat × ℚ) → List (Nat × ℚ)
  | [] => [x]
  | y :: t => if x.2 < y.2 then y :: insertDesc x t else x :: y :: t

/-- Sort indexed scores by descending score. -/
def sortDesc : List (Nat × ℚ) → List (Nat × ℚ)
  | [] => []
  | x :: t => insertDesc x (sortDesc t)

/-- Model of `torch.topk(conti_hyp_scores, k)`: the `k` largest scores with
their tensor positions, sorted by descending score.  `torch.topk` leaves the
relative order of equal scores unspecified (it differs between backends); this
executable model fixes one order, so no theorem below relies on how ties are
broken. -/
def topkSel (scores : List ℚ) (k : Nat) : List (Nat × ℚ) :=
  (sortDesc (idxFrom 0 scores)).take k

/-- Placeholder used by the total indexing function `List.getD`; the source's
`hyp_theorem[cand_hyp_id]` never goes out of range because `torch.topk` only
returns positions of the tensor it was given. -/
def defaultCand : Candidate := ⟨⟨0, false, none, 0, []⟩, 0, 0, 0, []⟩

/-- The selected survivors of one iteration, in `torch.topk` output order:
`zip(top_cand_hyp_pos, top_cand_hyp_scores)` materialised as
(candidate, score) pairs via `hyp_theorem[cand_hyp_id]` / `conti_hyp_steps[cand_hyp_id]`
(`eval.py` lines 111-122, `app.py` lines 106-116). -/
def iterSel (pred : GraphSolver → List (Nat × ℚ)) (logFn : ℚ → ℚ)
    (beamSize : Nat) (frontier : List BeamEntry) : List (Candidate × ℚ) :=
  let pool := iterPool pred logFn beamSize frontier
  (topkSel (pool.map Candidate.score) (min beamSize pool.length)).map
    fun p => (pool.getD p.1 defaultCand, p.2)

/-- Outcome of processing one iteration's survivors: either the search
returns (`done`) or a new frontier is carried to the next iteration. -/
inductive StepOut (ρ : Type) where
  | done (res : ρ)
  | frontier (f : List BeamEntry)
deriving DecidableEq, Repr

/-- The survivor loop of one iteration (`eval.py` lines 119-143, `app.py`
lines 113-137): for each selected candidate, deep-copy the parent and apply
the resolved theorem (`applyFn` bundles `get_model` + `solve_with_one_model`
under the source's `try`); on a raised error or a reported no-op
(`not now_hyp.is_updated`) the candidate is skipped; if the mutated clone
carries an answer the whole search returns at once with `onAnswer` applied to
the candidate and the clone (the two source files differ only in this
payload); otherwise the clone, its selected score and its step list are
appended to the new frontier. -/
def procCands (applyFn : Nat → GraphSolver → Except String GraphSolver)
    (onAnswer : Candidate → GraphSolver → ρ) :
    List (Candidate × ℚ) → List BeamEntry → StepOut ρ
  | [], acc => .frontier acc
  | (c, sc) :: rest, acc =>
    match applyFn c.theoremId c.parent with
    | .error _ => procCands applyFn onAnswer rest acc
    | .ok nowHyp =>
      if nowHyp.is_updated = false then procCands applyFn onAnswer rest acc
      else if nowHyp.answer.isSome then .done (onAnswer c nowHyp)
      else procCands applyFn onAnswer rest (acc ++ [⟨nowHyp, sc, c.steps⟩])

/-- One full iteration of the `while` loop: expand every frontier entry,
select the global top `min(beam_size, pool size)` candidates by score
(`torch.topk(conti_hyp_scores, k=min(self.beam_size, conti_hyp_scores.size(0)))`),
then run the survivor loop starting from empty `new_hypotheses` /
`new_hyp_scores` / `new_hyp_steps`. -/
def iterStep (pred : GraphSolver → List (Nat × ℚ)) (logFn : ℚ → ℚ)
    (applyFn : Nat → GraphSolver → Except String GraphSolver) (beamSize : Nat)
    (onAnswer : Candidate → GraphSolver → ρ) (frontier : List BeamEntry) :
    StepOut ρ :=
  procCands applyFn onAnswer (iterSel pred logFn beamSize frontier) []

/-- The `while t < max_step` loop, as fuel recursion on the remaining
iterations: when the fuel runs out the untouched initial result dictionary is
returned; a `done` outcome of an iteration is returned immediately. -/
def beamLoop (pred : GraphSolver → List (Nat × ℚ)) (logFn : ℚ → ℚ)
    (applyFn : Nat → GraphSolver → Except String GraphSolver) (beamSize : Nat)
    (onAnswer : Candidate → GraphSolver → ρ) (empty : ρ) :
    Nat → List BeamEntry → ρ
  | 0, _ => empty
  | t + 1, frontier =>
    match iterStep pred logFn applyFn beamSize onAnswer frontier with
    | .done r => r
    | .frontier f => beamLoop pred logFn applyFn beamSize onAnswer empty t f

/-- Answer payload of `eval.py` lines 135-139: the result carries
`now_hyp.answer`, the accumulated theorem-id list `now_steps`, and
`now_hyp.model_instance_eq_num`. -/
def evalOnAnswer : Candidate → GraphSolver → BeamRes :=
  fun c h => ⟨h.answer, c.steps, some h.model_instance_eq_num⟩

/-- Answer payload of `app.py` lines 129-133: the result carries
`now_hyp.answer`, `now_hyp.reasoning_record`, and
`now_hyp.model_instance_eq_num`. -/
def appOnAnswer : Candidate → GraphSolver → AppBeamRes :=
  fun _ h => ⟨h.answer, h.reasoning_record, some h.model_instance_eq_num⟩

/-- The initial frontier: `hypotheses = [graph_solver]`, `hyp_steps = [[]]`,
`hyp_scores = [0.]`. -/
def initFrontier (g : GraphSolver) : List BeamEntry := [⟨g, 0, []⟩]

/-- `AgentSolver.beam_search` of `eval.py` (lines 85-149). -/
def evalBeamSearch (pred : GraphSolver → List (Nat × ℚ)) (logFn : ℚ → ℚ)
    (applyFn : Nat → GraphSolver → Except String GraphSolver)
    (maxStep beamSize : Nat) (g : GraphSolver) : BeamRes :=
  beamLoop pred logFn applyFn beamSize evalOnAnswer emptyBeamRes maxStep
    (initFrontier g)

/-- `beam_search` of `app.py` (lines 80-143). -/
def appBeamSearch (pred : GraphSolver → List (Nat × ℚ)) (logFn : ℚ → ℚ)
    (applyFn : Nat → GraphSolver → Except String GraphSolver)
    (maxStep beamSize : Nat) (g : GraphSolver) : AppBeamRes :=
  beamLoop pred logFn applyFn beamSize appOnAnswer emptyAppBeamRes maxStep
    (initFrontier g)

/-- The uniform result record assembled by `solve` / `solve_with_time`,
polymorphic in the step-list element type (`eval.py` stores theorem ids,
`app.py` stores reasoning-record entries).  The `id` field is `Option String`
because `app.py` line 147 builds its outer default record with the Python
builtin `id` function instead of the question id; that non-string value is
modelled as `none`, while a proper question id is `some qid`. -/
structure ResRec (α : Type) where
  id : Option String
  target : Option String
  answer : Option ℚ
  step_lst : List α
  model_instance_eq_num : Option Nat
  correctness : String
  time : Option String
deriving DecidableEq, Repr

/-- Behaviour of one supervised execution unit (a `mp.Process` in `eval.py`, a
`func_timeout` call in `app.py`): it completes with a record, raises an error,
or exceeds the wall-clock budget and is cancelled. -/
inductive ProcOutcome (α : Type) where
  | completed (r : ResRec α)
  | errored
  | timedOut
deriving DecidableEq, Repr

/-- The default result dictionary of `eval.py`'s `solve_with_time` (lines
211-212): question id, no target, no answer, empty steps, correctness "no". -/
def defaultRes (qid : String) : ResRec Nat :=
  ⟨some qid, none, none, [], none, "no", none⟩

/-- The default result dictionary of `app.py`'s `solve_with_time` (lines
147-148), whose `"id"` entry is the builtin `id` function, not the question
id (modelled as `none`). -/
def appDefaultRes : ResRec StepRecord :=
  ⟨none, none, none, [], none, "no", none⟩

/-- Result of one supervised stage given the record `cur` held before it ran:
a completed child wrote its record into `return_dict` (overwriting any
previous value), so `return_dict.get('result', res)` yields it; a child that
raised caught the exception and wrote the record it was handed, i.e. `cur`;
a timed-out child was terminated without writing, so the lookup falls back to
the previous value `cur`.  In `app.py` the same trichotomy comes from
`func_timeout`: the completed value is returned, and both `FunctionTimedOut`
and any other exception fall back to the default record. -/
def stageResult (cur : ResRec α) : ProcOutcome α → ResRec α
  | .completed r => r
  | .errored => cur
  | .timedOut => cur

/-- `solve_with_time` of `eval.py` (lines 209-246): return the default record
for ineligible ids (`q_id` missing from either logic-form mapping or listed in
`error_ids`, abstracted as the `eligible` flag); otherwise run the primary
agent solve under its 120 s deadline, and if the resulting record has
correctness "no", run the heuristic fallback (`solve_question`) under its own
120 s deadline with the same catch-and-default behaviour. -/
def evalSolveWithTime (qid : String) (eligible : Bool)
    (primary fallback : ProcOutcome Nat) : ResRec Nat :=
  let res := defaultRes qid
  if eligible then
    let res := stageResult res primary
    if res.correctness = "no" then stageResult res fallback else res
  else res

/-- `solve_with_time` of `app.py` (lines 146-158): run `solve` under
`func_timeout(120, ...)` and return its record, or the default record on
timeout or error.  There is no fallback stage in this variant; the question id
is accepted for signature parity but the default record does not contain it
(see `appDefaultRes`). -/
def appSolveWithTime (qid : String) (primary : ProcOutcome StepRecord) :
    ResRec StepRecord :=
  stageResult appDefaultRes primary

/-- Placeholder hypothesis state for the total indexing of the clone store. -/
def defaultSolver : GraphSolver := ⟨0, false, none, 0, []⟩

/-- Heap model of `now_hyp = copy.deepcopy(prev_hyp)` (`eval.py` line 124,
`app.py` line 118): hypothesis objects live in a store addressed by index, and
a deep copy allocates a fresh cell holding a copy of the source cell's state,
sharing nothing with it. -/
def deepcopy (store : List GraphSolver) (i : Nat) : List GraphSolver × Nat :=
  (store ++ [store.getD i defaultSolver], store.length)

/-- Heap model of the in-place mutation `now_hyp.solve_with_one_model(...)`:
the cell at index `i` is replaced by the mutated state, all other cells are
untouched. -/
def mutateAt (store : List GraphSolver) (i : Nat)
    (f : GraphSolver → GraphSolver) : List GraphSolver :=
  store.set i (f (store.getD i defaultSolver))

/-- Concrete record with correctness "yes", used to exercise the fallback
stage at concrete inputs. -/
def yesRec : ResRec Nat :=
  ⟨some "1", some "x", some 5, [3], some 2, "yes", some "0.1"⟩

/-- Concrete unsuccessful primary record, as `solve` returns it when the beam
search finds no verified answer. -/
def noRec : ResRec Nat :=
  ⟨some "1", some "x", none, [], none, "no", some "1.0"⟩

/-- Concrete unsuccessful primary record for the `app.py` orchestrator. -/
def appNoRec : ResRec StepRecord :=
  ⟨some "1", some "x", none, [], none, "no", some "1.0"⟩

/-- Concrete scorer used to exercise the theorems at executable inputs: two
classes, with probabilities 1 and 1/2. -/
def predA : GraphSolver → List (Nat × ℚ) := fun _ => [(7, 1), (3, 1 / 2)]

/-- Concrete stand-in for `np.log` satisfying `logA q ≤ 0` for `q ≤ 1` and
`logA 1 = 0`. -/
def logA : ℚ → ℚ := fun q => q - 1

/-- Application stub that always raises. -/
def applyErr : Nat → GraphSolver → Except String GraphSolver :=
  fun _ _ => .error "fail"

/-- Reasoning step appended by the concrete application stub. -/
def stepA : StepRecord := ⟨"model_seven", [⟨"rel", ["act"], ["eq"]⟩]⟩

/-- Application stub whose result carries an answer: the clone reports an
update, its answer is set to 3, one equation instance is counted, and a step
is appended to its reasoning record. -/
def applyAns : Nat → GraphSolver → Except String GraphSolver := fun _ g =>
  .ok { g with is_updated := true, answer := some 3,
               model_instance_eq_num := 1,
               reasoning_record := g.reasoning_record ++ [stepA] }

/-- The first candidate that `predA`/`logA` generate from the initial frontier
of `defaultSolver` (class 7, probability 1, score 0 + logA 1 = 0). -/
def candA : Candidate := ⟨defaultSolver, 7, 1, 0, [7]⟩

theorem length_insertDesc (x : Nat × ℚ) (l : List (Nat × ℚ)) :
    (insertDesc x l).length = l.length + 1 := by
  induction l with
  | nil => rfl
  | cons y t ih =>
    simp only [insertDesc]
    split
    · simp [ih]
    · simp

theorem mem_insertDesc (x y : Nat × ℚ) (l : List (Nat × ℚ)) :
    y ∈ insertDesc x l ↔ y = x ∨ y ∈ l := by
  induction l with
  | nil => simp [insertDesc]
  | cons z t ih =>
    simp only [insertDesc]
    split
    · simp only [List.mem_cons, ih]
      tauto
    · simp only [List.mem_cons]

theorem length_sortDesc (l : List (Nat × ℚ)) :
    (sortDesc l).length = l.length := by
  induction l with
  | nil => rfl
  | cons x t ih => simp [sortDesc, length_insertDesc, ih]

theorem mem_sortDesc (y : Nat × ℚ) (l : List (Nat × ℚ)) :
    y ∈ sortDesc l ↔ y ∈ l := by
  induction l with
  | nil => simp [sortDesc]
  | cons x t ih => simp [sortDesc, mem_insertDesc, ih]

theorem length_idxFrom (l : List ℚ) : ∀ n, (idxFrom n l).length = l.length := by
  induction l with
  | nil => intro n; rfl
  | cons q t ih => intro n; simp [idxFrom, ih]

theorem mem_idxFrom (l : List ℚ) : ∀ (n : Nat) (p : Nat × ℚ), p ∈ idxFrom n l →
    n ≤ p.1 ∧ p.1 - n < l.length ∧ l.getD (p.1 - n) 0 = p.2 := by
  induction l with
  | nil => intro n p h; simp [idxFrom] at h
  | cons q t ih =>
    intro n p h
    simp only [idxFrom, List.mem_cons] at h
    rcases h with h | h
    · subst h
      simp [List.getD]
    · obtain ⟨h1, h2, h3⟩ := ih (n + 1) p h
      refine ⟨by omega, by simp; omega, ?_⟩
      have hk : p.1 - n = (p.1 - (n + 1)) + 1 := by omega
      rw [hk, List.getD_cons_succ, h3]

theorem length_topkSel (s : List ℚ) (k : Nat) :
    (topkSel s k).length = min k s.length := by
  simp [topkSel, List.length_take, length_sortDesc, length_idxFrom]

theorem mem_topkSel (s : List ℚ) (k : Nat) (p : Nat × ℚ) (h : p ∈ topkSel s k) :
    p.1 < s.length ∧ s.getD p.1 0 = p.2 := by
  have hmem : p ∈ idxFrom 0 s := by
    have := List.mem_of_mem_take h
    rwa [mem_sortDesc] at this
  have := mem_idxFrom s 0 p hmem
  simpa using this.2

theorem getD_mem {α : Type} (l : List α) : ∀ (i : Nat) (d : α),
    i < l.length → l.getD i d ∈ l := by
  induction l with
  | nil => intro i d h; simp at h
  | cons x t ih =>
    intro i d h
    cases i with
    | zero => simp [List.getD]
    | succ j =>
      simp only [List.getD_cons_succ]
      exact List.mem_cons_of_mem x (ih j d (by simpa using h))

theorem getD_map {α β : Type} (f : α → β) (l : List α) :
    ∀ (i : Nat) (d : α) (e : β), i < l.length →
      (l.map f).getD i e = f (l.getD i d) := by
  induction l with
  | nil => intro i d e h; simp at h
  | cons x t ih =>
    intro i d e h
    cases i with
    | zero => simp [List.getD]
    | succ j => simpa [List.getD_cons_succ] using ih j d e (by simpa using h)

theorem flatten_length_le {α : Type} (b : Nat) (L : List (List α))
    (h : ∀ l ∈ L, l.length ≤ b) : L.flatten.length ≤ b * L.length := by
  induction L with
  | nil => simp
  | cons l t ih =>
    simp only [List.flatten_cons, List.length_append, List.length_cons]
    have h1 : l.length ≤ b := h l (List.mem_cons_self l t)
    have h2 : t.flatten.length ≤ b * t.length :=
      ih fun x hx => h x (List.mem_cons_of_mem l hx)
    calc l.length + t.flatten.length ≤ b + b * t.length := by omega
    _ = b * (t.length + 1) := by ring

theorem length_hypCandidates (pred : GraphSolver → List (Nat × ℚ))
    (logFn : ℚ → ℚ) (beamSize : Nat) (e : BeamEntry) :
    (hypCandidates pred logFn beamSize e).length ≤ beamSize :=
  le_trans (List.length_filterMap_le _ _) (List.length_take_le _ _)

theorem mem_hypCandidates (pred : GraphSolver → List (Nat × ℚ))
    (logFn : ℚ → ℚ) (beamSize : Nat) (e : BeamEntry) (c : Candidate)
    (h : c ∈ hypCandidates pred logFn beamSize e) :
    c.parent = e.hyp ∧ (c.theoremId, c.prob) ∈ (pred e.hyp).take beamSize ∧
      ¬ c.prob < EPSILON ∧ c.score = e.score + logFn c.prob ∧
      c.steps = e.steps ++ [c.theoremId] := by
  rw [hypCandidates, List.mem_filterMap] at h
  obtain ⟨a, ha, hfa⟩ := h
  by_cases heps : a.2 < EPSILON
  · simp [heps] at hfa
  · simp only [heps, if_neg, if_false] at hfa
    cases hfa
    exact ⟨rfl, ha, heps, rfl, rfl⟩

theorem mem_iterPool (pred : GraphSolver → List (Nat × ℚ)) (logFn : ℚ → ℚ)
    (beamSize : Nat) (frontier : List BeamEntry) (c : Candidate)
    (h : c ∈ iterPool pred logFn beamSize frontier) :
    ∃ e ∈ frontier, c.parent = e.hyp ∧
      (c.theoremId, c.prob) ∈ (pred e.hyp).take beamSize ∧
      ¬ c.prob < EPSILON ∧ c.score = e.score + logFn c.prob ∧
      c.steps = e.steps ++ [c.theoremId] := by
  rw [iterPool, List.mem_flatten] at h
  obtain ⟨l, hl, hc⟩ := h
  rw [List.mem_map] at hl
  obtain ⟨e, he, rfl⟩ := hl
  exact ⟨e, he, mem_hypCandidates pred logFn beamSize e c hc⟩

theorem mem_iterSel (pred : GraphSolver → List (Nat × ℚ)) (logFn : ℚ → ℚ)
    (beamSize : Nat) (frontier : List BeamEntry) (cs : Candidate × ℚ)
    (h : cs ∈ iterSel pred logFn beamSize frontier) :
    cs.1 ∈ iterPool pred logFn beamSize frontier ∧ cs.2 = cs.1.score := by
  rw [iterSel, List.mem_map] at h
  obtain ⟨p, hp, rfl⟩ := h
  obtain ⟨hlt, hval⟩ := mem_topkSel _ _ p hp
  rw [List.length_map] at hlt
  constructor
  · exact getD_mem _ p.1 defaultCand hlt
  · rw [← hval, getD_map Candidate.score _ p.1 defaultCand 0 hlt]

theorem procCands_append (applyFn : Nat → GraphSolver → Except String GraphSolver)
    {ρ : Type} (onAnswer : Candidate → GraphSolver → ρ)
    (l₁ l₂ : List (Candidate × ℚ)) (acc : List BeamEntry) :
    procCands applyFn onAnswer (l₁ ++ l₂) acc =
      match procCands applyFn onAnswer l₁ acc with
      | .done r => .done r
      | .frontier a => procCands applyFn onAnswer l₂ a := by
  induction l₁ generalizing acc with
  | nil => simp [procCands]
  | cons hd t ih =>
    obtain ⟨c, sc⟩ := hd
    simp only [List.cons_append, procCands]
    cases happ : applyFn c.theoremId c.parent with
    | error e => exact ih acc
    | ok nowHyp =>
      by_cases hupd : nowHyp.is_updated = false
      · simp only [hupd, if_true, if_pos]
        exact ih acc
      · by_cases hans : nowHyp.answer.isSome
        · simp [hupd, hans]
        · simp only [hupd, hans, if_neg, if_false]
          exact ih (acc ++ [⟨nowHyp, sc, c.steps⟩])

theorem procCands_frontier_length
    (applyFn : Nat → GraphSolver → Except String GraphSolver)
    {ρ : Type} (onAnswer : Candidate → GraphSolver → ρ)
    (l : List (Candidate × ℚ)) : ∀ (acc f : List BeamEntry),
    procCands applyFn onAnswer l acc = .frontier f →
      f.length ≤ acc.length + l.length := by
  induction l with
  | nil =>
    intro acc f h
    simp only [procCands] at h
    cases h
    simp
  | cons hd t ih =>
    intro acc f h
    obtain ⟨c, sc⟩ := hd
    simp only [procCands] at h
    cases happ : applyFn c.theoremId c.parent with
    | error e =>
      rw [happ] at h
      have := ih acc f h
      simpa using by omega
    | ok nowHyp =>
      rw [happ] at h
      dsimp only at h
      by_cases hupd : nowHyp.is_updated = false
      · rw [if_pos hupd] at h
        have := ih acc f h
        simpa using by omega
      · rw [if_neg hupd] at h
        by_cases hans : nowHyp.answer.isSome
        · rw [if_pos hans] at h
          cases h
        · rw [if_neg hans] at h
          have := ih _ f h
          simp only [List.length_append, List.length_cons, List.length_nil] at this ⊢
          omega

theorem beamLoop_done (pred : GraphSolver → List (Nat × ℚ)) (logFn : ℚ → ℚ)
    (applyFn : Nat → GraphSolver → Except String GraphSolver) (beamSize : Nat)
    {ρ : Type} (onAnswer : Candidate → GraphSolver → ρ) (empty : ρ)
    (t : Nat) (frontier : List BeamEntry) (r : ρ)
    (h : iterStep pred logFn applyFn beamSize onAnswer frontier = .done r) :
    beamLoop pred logFn applyFn beamSize onAnswer empty (t + 1) frontier = r := by
  simp [beamLoop, h]

theorem procCands_early_done
    (applyFn : Nat → GraphSolver → Except String GraphSolver)
    {ρ : Type} (onAnswer : Candidate → GraphSolver → ρ)
    (c : Candidate) (sc : ℚ) (h : GraphSolver)
    (happ : applyFn c.theoremId c.parent = .ok h)
    (hupd : h.is_updated = true) (hans : h.answer.isSome = true)
    (pre rest : List (Candidate × ℚ)) (acc accPre : List BeamEntry)
    (hpre : procCands applyFn onAnswer pre acc = .frontier accPre) :
    procCands applyFn onAnswer (pre ++ (c, sc) :: rest) acc =
      .done (onAnswer c h) := by
  rw [procCands_append, hpre]
  dsimp only
  simp only [procCands, happ]
  rw [if_neg (by simp [hupd]), if_pos hans]

/-- C1: for every run of the beam search with `beamSize ≥ 1` the number of
active hypotheses is at most `beamSize` at every iteration boundary: the
initial frontier is the single starting hypothesis, and any frontier produced
by one expand-score-prune iteration (`iterStep`, for either result payload)
has length at most `beamSize`, because the global top-k selection keeps at
most `min(beamSize, pool size)` candidates and the survivor loop only drops
candidates. -/
theorem beam_active_hypotheses_bound (pred : GraphSolver → List (Nat × ℚ))
    (logFn : ℚ → ℚ) (applyFn : Nat → GraphSolver → Except String GraphSolver)
    (beamSize : Nat) (g : GraphSolver) (hb : 1 ≤ beamSize) :
    (initFrontier g).length ≤ beamSize ∧
    ∀ (ρ : Type) (onAnswer : Candidate → GraphSolver → ρ)
      (f fNew : List BeamEntry),
      iterStep pred logFn applyFn beamSize onAnswer f = .frontier fNew →
        fNew.length ≤ beamSize := by
  constructor
  · simpa [initFrontier] using hb
  · intro ρ onAnswer f fNew h
    rw [iterStep] at h
    have hlen := procCands_frontier_length applyFn onAnswer _ [] fNew h
    have hsel : (iterSel pred logFn beamSize f).length ≤ beamSize := by
      rw [iterSel]
      simp only [List.length_map, length_topkSel]
      omega
    simp only [List.length_nil, Nat.zero_add] at hlen
    omega

theorem beam_active_hypotheses_bound_witness :
    (initFrontier defaultSolver).length ≤ 1 ∧
    ∀ (ρ : Type) (onAnswer : Candidate → GraphSolver → ρ)
      (f fNew : List BeamEntry),
      iterStep predA logA applyErr 1 onAnswer f = .frontier fNew →
        fNew.length ≤ 1 :=
  beam_active_hypotheses_bound predA logA applyErr 1 defaultSolver
    (by decide)

/-- C2: in every iteration, every candidate in the pool comes from the first
`beamSize` entries of its parent's sorted score list and has probability at
least `EPSILON = 1e-5` (sub-epsilon candidates are discarded before scoring);
the pool has at most `beamSize * |frontier|` elements; and every selected
survivor is a pool element, hence also has probability at least `EPSILON`. -/
theorem beam_candidate_pruning (pred : GraphSolver → List (Nat × ℚ))
    (logFn : ℚ → ℚ) (beamSize : Nat) (frontier : List BeamEntry) :
    (∀ c ∈ iterPool pred logFn beamSize frontier,
        ∃ e ∈ frontier, c.parent = e.hyp ∧
          (c.theoremId, c.prob) ∈ (pred e.hyp).take beamSize ∧
          ¬ c.prob < EPSILON) ∧
    (iterPool pred logFn beamSize frontier).length ≤
      beamSize * frontier.length ∧
    (∀ cs ∈ iterSel pred logFn beamSize frontier,
        cs.1 ∈ iterPool pred logFn beamSize frontier ∧
          ¬ cs.1.prob < EPSILON) := by
  refine ⟨?_, ?_, ?_⟩
  · intro c hc
    obtain ⟨e, he, h1, h2, h3, _, _⟩ :=
      mem_iterPool pred logFn beamSize frontier c hc
    exact ⟨e, he, h1, h2, h3⟩
  · rw [iterPool]
    have hfl := flatten_length_le beamSize
        (frontier.map (hypCandidates pred logFn beamSize)) (by
      intro l hl
      rw [List.mem_map] at hl
      obtain ⟨e, _, rfl⟩ := hl
      exact length_hypCandidates pred logFn beamSize e)
    simpa using hfl
  · intro cs hcs
    obtain ⟨hpool, _⟩ := mem_iterSel pred logFn beamSize frontier cs hcs
    refine ⟨hpool, ?_⟩
    obtain ⟨e, _, _, _, h3, _, _⟩ :=
      mem_iterPool pred logFn beamSize frontier cs.1 hpool
    exact h3

theorem beam_candidate_pruning_witness :
    ∃ e ∈ initFrontier defaultSolver, candA.parent = e.hyp ∧
      (candA.theoremId, candA.prob) ∈ (predA e.hyp).take 2 ∧
      ¬ candA.prob < EPSILON :=
  (beam_candidate_pruning predA logA 2 (initFrontier defaultSolver)).1
    candA (by with_unfolding_all decide)

/-- C5: every candidate's cumulative score is its parent's cumulative
log-score plus the log of the candidate's probability; and under the
mathematical facts about log that `np.log` satisfies (log q ≤ 0 for
0 < q ≤ 1) and the Scorer contract that probabilities are at most 1, every
selected survivor's stored cumulative score equals its candidate score and is
at most its parent's score, so scores are non-increasing along every path. -/
theorem beam_score_monotone (pred : GraphSolver → List (Nat × ℚ))
    (logFn : ℚ → ℚ) (beamSize : Nat) (frontier : List BeamEntry)
    (hlog : ∀ q : ℚ, 0 < q → q ≤ 1 → logFn q ≤ 0)
    (hprob : ∀ (h : GraphSolver) (tid : Nat) (pr : ℚ),
      (tid, pr) ∈ pred h → pr ≤ 1) :
    (∀ c ∈ iterPool pred logFn beamSize frontier,
        ∃ e ∈ frontier, c.parent = e.hyp ∧
          c.score = e.score + logFn c.prob) ∧
    (∀ cs ∈ iterSel pred logFn beamSize frontier,
        cs.2 = cs.1.score ∧
        ∃ e ∈ frontier, cs.1.parent = e.hyp ∧ cs.1.score ≤ e.score) := by
  have hpool : ∀ c ∈ iterPool pred logFn beamSize frontier,
      ∃ e ∈ frontier, c.parent = e.hyp ∧
        c.score = e.score + logFn c.prob ∧ c.score ≤ e.score := by
    intro c hc
    obtain ⟨e, he, h1, h2, h3, h4, _⟩ :=
      mem_iterPool pred logFn beamSize frontier c hc
    have hp1 : c.prob ≤ 1 :=
      hprob e.hyp c.theoremId c.prob (List.mem_of_mem_take h2)
    have hp0 : 0 < c.prob := by
      have heps : EPSILON ≤ c.prob := not_lt.mp h3
      have hpos : (0 : ℚ) < EPSILON := by norm_num [EPSILON]
      linarith
    have hneg := hlog c.prob hp0 hp1
    exact ⟨e, he, h1, h4, by rw [h4]; linarith⟩
  constructor
  · intro c hc
    obtain ⟨e, he, h1, h2, _⟩ := hpool c hc
    exact ⟨e, he, h1, h2⟩
  · intro cs hcs
    obtain ⟨hmem, hval⟩ := mem_iterSel pred logFn beamSize frontier cs hcs
    obtain ⟨e, he, h1, _, h3⟩ := hpool cs.1 hmem
    exact ⟨hval, e, he, h1, h3⟩

theorem beam_score_monotone_witness :
    (candA, (0 : ℚ)).2 = candA.score ∧
    ∃ e ∈ initFrontier defaultSolver, candA.parent = e.hyp ∧
      candA.score ≤ e.score :=
  (beam_score_monotone predA logA 2 (initFrontier defaultSolver)
      (fun q h0 h1 => by simp only [logA]; linarith)
      (fun h tid pr hm => by
        simp only [predA, List.mem_cons, List.mem_singleton] at hm
        rcases hm with hm | hm | hm <;> first
          | (cases hm; norm_num)
          | cases hm)).2
    (candA, 0) (by with_unfolding_all decide)

/-- C7: with `maxSteps = 0` the `while` loop body never runs and the search
returns the untouched empty result (answer `None`, empty step list, no
equation count).  The scorer, log and application parameters are universally
quantified, so the result does not depend on them in any way — in particular
the Scorer is never consulted. -/
theorem beam_search_zero_maxsteps (pred : GraphSolver → List (Nat × ℚ))
    (logFn : ℚ → ℚ) (applyFn : Nat → GraphSolver → Except String GraphSolver)
    (beamSize : Nat) (g : GraphSolver) :
    evalBeamSearch pred logFn applyFn 0 beamSize g =
      { answer := none, step_lst := [], model_instance_eq_num := none } ∧
    appBeamSearch pred logFn applyFn 0 beamSize g =
      { answer := none, step_lst := [], model_instance_eq_num := none } :=
  ⟨rfl, rfl⟩

/-- C4: a surviving candidate whose resolution or application raises, or whose
application reports a no-op (`is_updated` false), is dropped silently:
processing the survivor list with the failing candidate present gives exactly
the same outcome as processing the list with that one candidate removed, for
either result payload — so the drop never terminates the search, never
escapes `beam_search`, and removes only that branch. -/
theorem beam_failed_candidate_dropped
    (applyFn : Nat → GraphSolver → Except String GraphSolver)
    {ρ : Type} (onAnswer : Candidate → GraphSolver → ρ)
    (c : Candidate) (sc : ℚ)
    (hfail : (∃ msg, applyFn c.theoremId c.parent = .error msg) ∨
      ∃ h, applyFn c.theoremId c.parent = .ok h ∧ h.is_updated = false) :
    ∀ (pre rest : List (Candidate × ℚ)) (acc : List BeamEntry),
      procCands applyFn onAnswer (pre ++ (c, sc) :: rest) acc =
        procCands applyFn onAnswer (pre ++ rest) acc := by
  intro pre rest acc
  rw [procCands_append, procCands_append]
  cases hpre : procCands applyFn onAnswer pre acc with
  | done r => rfl
  | frontier a =>
    dsimp only
    show procCands applyFn onAnswer ((c, sc) :: rest) a =
      procCands applyFn onAnswer rest a
    simp only [procCands]
    rcases hfail with ⟨msg, herr⟩ | ⟨h, hok, hupd⟩
    · rw [herr]
    · rw [hok]
      dsimp only
      rw [if_pos hupd]

theorem beam_failed_candidate_dropped_witness :
    procCands applyErr evalOnAnswer ([] ++ (candA, 0) :: []) [] =
      procCands applyErr evalOnAnswer ([] ++ []) [] :=
  beam_failed_candidate_dropped applyErr evalOnAnswer candA 0
    (Or.inl ⟨"fail", rfl⟩) [] [] []

/-- C3 (amended): if applying the selected theorem to the cloned hypothesis
yields a clone that reports an update and carries a non-empty answer, the
search terminates immediately and returns that answer together with the
clone's equation-instance count; the first such candidate in the step-4
selection order wins and the trailing candidates `rest` are never examined
(the result does not depend on them).  As the step list, `eval.py` returns
the winning candidate's accumulated theorem-id path (`now_steps`), whereas
`app.py` returns the clone's full reasoning record; the last conjunct shows
the enclosing loop forwards such an iteration result at once. -/
theorem beam_answer_early_exit
    (applyFn : Nat → GraphSolver → Except String GraphSolver)
    (c : Candidate) (sc : ℚ) (h : GraphSolver) (a : ℚ)
    (happ : applyFn c.theoremId c.parent = .ok h)
    (hupd : h.is_updated = true) (hans : h.answer = some a) :
    (∀ (pre rest : List (Candidate × ℚ)) (acc accPre : List BeamEntry),
      procCands applyFn evalOnAnswer pre acc = .frontier accPre →
      procCands applyFn evalOnAnswer (pre ++ (c, sc) :: rest) acc =
        .done ⟨some a, c.steps, some h.model_instance_eq_num⟩) ∧
    (∀ (pre rest : List (Candidate × ℚ)) (acc accPre : List BeamEntry),
      procCands applyFn appOnAnswer pre acc = .frontier accPre →
      procCands applyFn appOnAnswer (pre ++ (c, sc) :: rest) acc =
        .done ⟨some a, h.reasoning_record, some h.model_instance_eq_num⟩) ∧
    (∀ (pred : GraphSolver → List (Nat × ℚ)) (logFn : ℚ → ℚ)
      (beamSize t : Nat) (frontier : List BeamEntry) (r : BeamRes),
      iterStep pred logFn applyFn beamSize evalOnAnswer frontier = .done r →
      beamLoop pred logFn applyFn beamSize evalOnAnswer emptyBeamRes (t + 1)
        frontier = r) := by
  have hansSome : h.answer.isSome = true := by rw [hans]; rfl
  refine ⟨?_, ?_, ?_⟩
  · intro pre rest acc accPre hpre
    rw [procCands_early_done applyFn evalOnAnswer c sc h happ hupd hansSome
      pre rest acc accPre hpre]
    simp [evalOnAnswer, hans]
  · intro pre rest acc accPre hpre
    rw [procCands_early_done applyFn appOnAnswer c sc h happ hupd hansSome
      pre rest acc accPre hpre]
    simp [appOnAnswer, hans]
  · intro pred logFn beamSize t frontier r hdone
    exact beamLoop_done pred logFn applyFn beamSize evalOnAnswer emptyBeamRes
      t frontier r hdone

theorem beam_answer_early_exit_witness :
    procCands applyAns evalOnAnswer ([] ++ (candA, 0) :: []) [] =
      .done ⟨some 3, candA.steps, some 1⟩ :=
  (beam_answer_early_exit applyAns candA 0 ⟨0, true, some 3, 1, [stepA]⟩ 3
      rfl rfl rfl).1 [] [] [] [] rfl

/-- C3 counterexample: in a concrete one-step run whose single application
sets the answer to 3 and appends the step `stepA` to the clone's reasoning
record, `eval.py`'s beam search returns the theorem-id path `[7]` as
`step_lst` — not the winning hypothesis's reasoning record `[stepA]`, which
is what `app.py`'s variant returns. -/
theorem beam_answer_early_exit_counterexample :
    evalBeamSearch predA logA applyAns 1 1 defaultSolver =
      { answer := some 3, step_lst := [7], model_instance_eq_num := some 1 } ∧
    applyAns 7 defaultSolver = .ok ⟨0, true, some 3, 1, [stepA]⟩ ∧
    appBeamSearch predA logA applyAns 1 1 defaultSolver =
      { answer := some 3, step_lst := [stepA],
        model_instance_eq_num := some 1 } ∧
    ([stepA] : List StepRecord) ≠ [] :=
  ⟨by with_unfolding_all decide, rfl, by with_unfolding_all decide,
    List.cons_ne_nil _ _⟩

/-- C8 (amended): for every problem id, eligibility and behaviour of the
primary solve stage, `solve_with_time` returns exactly one result record —
always the default record, the primary's completed record, or the fallback's
completed record, never an escaping exception; when the primary stage raises
or times out it contributes the default record with correctness "no", so the
final record has correctness "no" unless the fallback stage completes with a
record of its own, which is then returned; `app.py`'s variant has no fallback
stage and returns the default "no" record on error or timeout. -/
theorem solve_with_time_no_propagation (qid : String) (eligible : Bool)
    (primary fallback : ProcOutcome Nat) :
    (evalSolveWithTime qid eligible primary fallback = defaultRes qid ∨
      primary = .completed (evalSolveWithTime qid eligible primary fallback) ∨
      fallback = .completed (evalSolveWithTime qid eligible primary fallback)) ∧
    ((primary = .errored ∨ primary = .timedOut) →
      stageResult (defaultRes qid) primary = defaultRes qid ∧
      (defaultRes qid).correctness = "no") ∧
    ((primary = .errored ∨ primary = .timedOut) →
      (evalSolveWithTime qid eligible primary fallback).correctness = "no" ∨
      ∃ r, fallback = .completed r ∧
        evalSolveWithTime qid eligible primary fallback = r) ∧
    (∀ (qid2 : String) (p2 : ProcOutcome StepRecord),
      (p2 = .errored ∨ p2 = .timedOut) →
      appSolveWithTime qid2 p2 = appDefaultRes ∧
        appDefaultRes.correctness = "no") := by
  refine ⟨?_, ?_, ?_, ?_⟩
  · cases eligible with
    | false => exact Or.inl rfl
    | true =>
      cases primary with
      | completed r =>
        by_cases hr : r.correctness = "no"
        · cases fallback with
          | completed r2 =>
            right; right
            simp [evalSolveWithTime, stageResult, hr]
          | errored =>
            right; left
            simp [evalSolveWithTime, stageResult, hr]
          | timedOut =>
            right; left
            simp [evalSolveWithTime, stageResult, hr]
        · right; left
          simp [evalSolveWithTime, stageResult, hr]
      | errored =>
        cases fallback with
        | completed r2 =>
          right; right
          simp [evalSolveWithTime, stageResult, defaultRes]
        | errored => exact Or.inl (by simp [evalSolveWithTime, stageResult, defaultRes])
        | timedOut => exact Or.inl (by simp [evalSolveWithTime, stageResult, defaultRes])
      | timedOut =>
        cases fallback with
        | completed r2 =>
          right; right
          simp [evalSolveWithTime, stageResult, defaultRes]
        | errored => exact Or.inl (by simp [evalSolveWithTime, stageResult, defaultRes])
        | timedOut => exact Or.inl (by simp [evalSolveWithTime, stageResult, defaultRes])
  · rintro (rfl | rfl) <;> exact ⟨rfl, rfl⟩
  · rintro (rfl | rfl) <;> cases eligible <;> cases fallback <;>
      first
        | exact Or.inl rfl
        | (rename_i r2; exact Or.inr ⟨r2, rfl, by
            simp [evalSolveWithTime, stageResult, defaultRes]⟩)
  · rintro qid2 p2 (rfl | rfl) <;> exact ⟨rfl, rfl⟩

theorem solve_with_time_no_propagation_witness :
    (evalSolveWithTime "1" true .errored .timedOut).correctness = "no" ∨
    ∃ r, (ProcOutcome.timedOut : ProcOutcome Nat) = .completed r ∧
      evalSolveWithTime "1" true .errored .timedOut = r :=
  (solve_with_time_no_propagation "1" true .errored .timedOut).2.2.1
    (Or.inl rfl)

/-- C8 counterexample: with an eligible id, a primary stage that raises, and a
fallback that completes with a correctness-"yes" record, `eval.py`'s
`solve_with_time` returns that record — its correctness is "yes", not "no",
so "on error or timeout the returned record has correctness no" fails. -/
theorem solve_with_time_counterexample :
    evalSolveWithTime "1" true .errored (.completed yesRec) = yesRec ∧
    yesRec.correctness = "yes" ∧ yesRec.correctness ≠ "no" := by
  refine ⟨rfl, rfl, by decide⟩

/-- C9 (amended): in `eval.py` the fallback stage runs exactly when the
primary stage's record has correctness "no" — when the primary record's
correctness is not "no" it is returned unchanged and the result does not
depend on the fallback's behaviour at all, and when it is "no" (which
includes every primary error or timeout) the result is exactly the fallback
stage applied to it.  `app.py`'s `solve_with_time` has no fallback stage:
its result is always the primary stage's record, even when its correctness
is "no". -/
theorem fallback_invocation_policy (qid : String) (primary : ProcOutcome Nat) :
    ((stageResult (defaultRes qid) primary).correctness ≠ "no" →
      ∀ fb fb' : ProcOutcome Nat,
        evalSolveWithTime qid true primary fb =
          stageResult (defaultRes qid) primary ∧
        evalSolveWithTime qid true primary fb =
          evalSolveWithTime qid true primary fb') ∧
    ((stageResult (defaultRes qid) primary).correctness = "no" →
      ∀ fb : ProcOutcome Nat,
        evalSolveWithTime qid true primary fb =
          stageResult (stageResult (defaultRes qid) primary) fb) ∧
    ((primary = .errored ∨ primary = .timedOut) →
      (stageResult (defaultRes qid) primary).correctness = "no") ∧
    (∀ (qid2 : String) (p2 : ProcOutcome StepRecord),
      appSolveWithTime qid2 p2 = stageResult appDefaultRes p2) := by
  refine ⟨?_, ?_, ?_, fun qid2 p2 => rfl⟩
  · intro hne fb fb'
    constructor <;> simp [evalSolveWithTime, hne]
  · intro heq fb
    simp [evalSolveWithTime, heq]
  · rintro (rfl | rfl) <;> rfl

theorem fallback_invocation_policy_witness :
    evalSolveWithTime "1" true (.completed yesRec) .errored =
      stageResult (defaultRes "1") (.completed yesRec) ∧
    evalSolveWithTime "1" true (.completed yesRec) .errored =
      evalSolveWithTime "1" true (.completed yesRec) .timedOut :=
  (fallback_invocation_policy "1" (.completed yesRec)).1 (by decide)
    .errored .timedOut

/-- C9 counterexample: with the same unsuccessful primary record, `eval.py`'s
orchestrator replaces it by the fallback's completed record, while `app.py`'s
`solve_with_time` returns it unchanged — there is no fallback invocation in
`app.py`, so "the fallback is invoked if and only if the primary result has
correctness no" fails for `app.py`'s `solve_with_time`. -/
theorem fallback_invocation_counterexample :
    evalSolveWithTime "1" true (.completed noRec) (.completed yesRec) =
      yesRec ∧
    appSolveWithTime "1" (.completed appNoRec) = appNoRec ∧
    appNoRec.correctness = "no" ∧ yesRec.correctness = "yes" :=
  ⟨rfl, rfl, rfl, rfl⟩

theorem getD_append_lt {α : Type} (l : List α) (x : α) :
    ∀ (j : Nat) (d : α), j < l.length → (l ++ [x]).getD j d = l.getD j d := by
  induction l with
  | nil => intro j d h; simp at h
  | cons y t ih =>
    intro j d h
    cases j with
    | zero => rfl
    | succ k =>
      simp only [List.cons_append, List.getD_cons_succ]
      exact ih k d (by simpa using h)

theorem getD_append_len {α : Type} (l : List α) (x : α) (d : α) :
    (l ++ [x]).getD l.length d = x := by
  induction l with
  | nil => rfl
  | cons y t ih =>
    simp only [List.cons_append, List.length_cons, List.getD_cons_succ]
    exact ih

theorem set_append_len {α : Type} (l : List α) (x y : α) :
    (l ++ [x]).set l.length y = l ++ [y] := by
  induction l with
  | nil => rfl
  | cons z t ih => simp [List.set, ih]

/-- C10: in the store model of Python object semantics, `deepcopy` allocates a
fresh cell (distinct from the parent's and from every pre-existing sibling's)
holding a copy of the parent's state; mutating the clone's cell in place — as
`solve_with_one_model` does — leaves every pre-existing cell untouched, so in
particular the parent's `graph`, `reasoning_record` and `answer` are
unchanged, as is every sibling hypothesis. -/
theorem clone_mutation_independence (store : List GraphSolver) (p : Nat)
    (f : GraphSolver → GraphSolver) (hp : p < store.length) :
    (deepcopy store p).2 ≠ p ∧
    ((deepcopy store p).1).getD (deepcopy store p).2 defaultSolver =
      store.getD p defaultSolver ∧
    (∀ j, j < store.length →
      (mutateAt (deepcopy store p).1 (deepcopy store p).2 f).getD j
          defaultSolver =
        store.getD j defaultSolver) ∧
    ((mutateAt (deepcopy store p).1 (deepcopy store p).2 f).getD p
        defaultSolver).graph = (store.getD p defaultSolver).graph ∧
    ((mutateAt (deepcopy store p).1 (deepcopy store p).2 f).getD p
        defaultSolver).reasoning_record =
      (store.getD p defaultSolver).reasoning_record ∧
    ((mutateAt (deepcopy store p).1 (deepcopy store p).2 f).getD p
        defaultSolver).answer = (store.getD p defaultSolver).answer := by
  have hcopy : ((deepcopy store p).1).getD (deepcopy store p).2 defaultSolver =
      store.getD p defaultSolver :=
    getD_append_len store _ defaultSolver
  have hmut : mutateAt (deepcopy store p).1 (deepcopy store p).2 f =
      store ++ [f (store.getD p defaultSolver)] := by
    rw [mutateAt, hcopy]
    exact set_append_len store _ _
  have hunch : ∀ j, j < store.length →
      (mutateAt (deepcopy store p).1 (deepcopy store p).2 f).getD j
          defaultSolver = store.getD j defaultSolver := by
    intro j hj
    rw [hmut]
    exact getD_append_lt store _ j defaultSolver hj
  have hparent := hunch p hp
  have hfresh : (deepcopy store p).2 = store.length := rfl
  exact ⟨by rw [hfresh]; omega, hcopy, hunch, by rw [hparent],
    by rw [hparent], by rw [hparent]⟩

theorem clone_mutation_independence_witness :
    (deepcopy [defaultSolver] 0).2 ≠ 0 ∧
    ((deepcopy [defaultSolver] 0).1).getD (deepcopy [defaultSolver] 0).2
        defaultSolver = [defaultSolver].getD 0 defaultSolver ∧
    (∀ j, j < [defaultSolver].length →
      (mutateAt (deepcopy [defaultSolver] 0).1 (deepcopy [defaultSolver] 0).2
          (fun g => { g with answer := some 9 })).getD j defaultSolver =
        [defaultSolver].getD j defaultSolver) ∧
    ((mutateAt (deepcopy [defaultSolver] 0).1 (deepcopy [defaultSolver] 0).2
        (fun g => { g with answer := some 9 })).getD 0
        defaultSolver).graph = ([defaultSolver].getD 0 defaultSolver).graph ∧
    ((mutateAt (deepcopy [defaultSolver] 0).1 (deepcopy [defaultSolver] 0).2
        (fun g => { g with answer := some 9 })).getD 0
        defaultSolver).reasoning_record =
      ([defaultSolver].getD 0 defaultSolver).reasoning_record ∧
    ((mutateAt (deepcopy [defaultSolver] 0).1 (deepcopy [defaultSolver] 0).2
        (fun g => { g with answer := some 9 })).getD 0
        defaultSolver).answer = ([defaultSolver].getD 0 defaultSolver).answer :=
  clone_mutation_independence [defaultSolver] 0
    (fun g => { g with answer := some 9 }) (by decide)

end HGR
